import Mathlib

/-!
Verification of the expression-function reference parser of the
Power-Automate-Utility VS Code extension (`parser.js`).

The parser is a line-oriented scan over a markdown document.  Every
definition below is a direct shallow embedding of the corresponding
JavaScript function; JS strings are modelled as Lean `String`
(character lists), JS arrays as `List`, JS `null`/`undefined` results
as `Option`, and the JS object used as a name-to-category dictionary as
an association list together with an explicit model of the
`Object.prototype` lookup chain (a property read on `{}` that misses
every own property still finds the built-in prototype members such as
`toString`, which is observable through `oCategoryMap[sName] || "Other"`).

Loops with an index that can jump forward are embedded with an explicit
fuel argument; the fuel supplied is always at least the number of loop
iterations the JS code performs, because every iteration advances the
index by at least one.
-/

/-- JS `\s` / `String.prototype.trim` whitespace, restricted to the ASCII
whitespace characters (space, tab, newline, carriage return, vertical
tab, form feed).  The documents being parsed are ASCII. -/
def jsWs (c : Char) : Bool :=
  c = ' ' || c = '\t' || c = '\n' || c = '\r' || c = '\x0b' || c = '\x0c'

/-- Trim JS-whitespace from both ends of a character list
(JS `String.prototype.trim`). -/
def trimChars (l : List Char) : List Char :=
  ((l.dropWhile jsWs).reverse.dropWhile jsWs).reverse

/-- JS `s.trim()`. -/
def jtrim (s : String) : String :=
  String.mk (trimChars s.data)

/-- ASCII lower-casing of one character (used to model the `i` regex flag
on the ASCII patterns that occur in the parser). -/
def lowerAscii (c : Char) : Char :=
  if 'A' ≤ c ∧ c ≤ 'Z' then Char.ofNat (c.toNat + 32) else c

/-- ASCII lower-casing of a string. -/
def lowerStr (s : String) : String :=
  String.mk (s.data.map lowerAscii)

/-- JS `hay.indexOf(needle) !== -1`: substring containment. -/
def containsSub (hay needle : String) : Bool :=
  decide (needle.data <:+: hay.data)

/-- Case-insensitive substring test; `needle` is supplied already
lower-cased. -/
def containsSubCi (hay needle : String) : Bool :=
  containsSub (lowerStr hay) needle

/-- Split a character list at every occurrence of `sep` (JS
`String.prototype.split` with a one-character separator): `n` separators
yield `n + 1` pieces, empty pieces included. -/
def splitCharAux (sep : Char) : List Char → List Char → List (List Char)
  | [], acc => [acc.reverse]
  | c :: rest, acc =>
    if c = sep then acc.reverse :: splitCharAux sep rest []
    else splitCharAux sep rest (c :: acc)

/-- String-level wrapper for `splitCharAux`. -/
def splitChar (sep : Char) (s : String) : List String :=
  (splitCharAux sep s.data []).map String.mk

/-- JS `content.split("\n")`. -/
def splitNl (s : String) : List String :=
  splitChar '\n' s

/-- JS `Array.prototype.join(sep)`. -/
def jsJoin (sep : String) : List String → String
  | [] => ""
  | [x] => x
  | x :: y :: xs => x ++ sep ++ jsJoin sep (y :: xs)

/-- The ASCII letter test of the regex class `[a-zA-Z]`. -/
def regAlpha (c : Char) : Bool :=
  ('a' ≤ c ∧ c ≤ 'z') ∨ ('A' ≤ c ∧ c ≤ 'Z')

/-- The regex class `[a-zA-Z0-9]`. -/
def regAlnum (c : Char) : Bool :=
  regAlpha c || ('0' ≤ c ∧ c ≤ '9')

/-! ### Regex-equivalent matchers

Each JS regex used by the parser is deterministic on its inputs (every
quantifier is over a character class disjoint from the character that
must follow it, so greedy matching never needs to backtrack), which lets
each one be embedded as a first-order function on the character list. -/

/-- `findAlphabeticalListStart`'s marker test: the line contains both
`"alphabetical-list"` and `"<a name="` (parser.js line 53). -/
def isAnchorLine (line : String) : Bool :=
  containsSub line "alphabetical-list" && containsSub line "<a name="

/-- `findAlphabeticalListStart` (parser.js lines 51-58): index of the first
marker line, and `0` when there is none (the JS loop falls through to
`return 0`). -/
def findAlphabeticalListStart (lines : List String) : Nat :=
  match lines.findIdx? (fun l => isAnchorLine l) with
  | some i => i
  | none => 0

/-- Remainder test of the first heading regex
`^### ([a-zA-Z][a-zA-Z0-9]*)\s*(?:\(.*\))?\s*$`: after the captured name
the rest of the line must be whitespace around an optional single
parenthesised group.  Trimmed, that rest is either empty or starts with
`(` and ends with `)`. -/
def headingRest1 (r : List Char) : Bool :=
  let t := trimChars r
  t.isEmpty || (t.head? = some '(' && t.getLast? = some ')')

/-- Remainder test of the second heading regex
`\s+\(deprecated\)` (flag `i`, not anchored at the end): at least one
whitespace character, then the literal `(deprecated)` in any casing. -/
def headingRest2 (r : List Char) : Bool :=
  let t := r.dropWhile jsWs
  decide (t.length < r.length) &&
    decide ((t.take 12).map lowerAscii = "(deprecated)".data)

/-- Shared prefix of both heading regexes: `### ` then a name matching
`[a-zA-Z][a-zA-Z0-9]*` (greedy, which is exact here because the
character following the name can never be alphanumeric).  Returns the
captured name and the remainder of the line. -/
def headingNameSplit (line : String) : Option (String × List Char) :=
  match line.data with
  | '#' :: '#' :: '#' :: ' ' :: c :: rest =>
    if regAlpha c then
      let run := rest.takeWhile regAlnum
      some (String.mk (c :: run), rest.drop run.length)
    else none
  | _ => none

/-- Result of `matchFunctionHeading`: the JS code returns `{ sName }`
(whose absent `bDeprecated` reads back as `undefined`, i.e. false at the
use site `oHeading.bDeprecated || false`) or
`{ sName, bDeprecated: true }`. -/
structure Heading where
  sName : String
  bDeprecated : Bool
  deriving DecidableEq, Repr

/-- `matchFunctionHeading` (parser.js lines 65-78): the first regex is
tried first; only when it fails is the case-insensitive
`(deprecated)` regex tried, and only that second branch sets the flag. -/
def matchFunctionHeading (line : String) : Option Heading :=
  match headingNameSplit line with
  | none => none
  | some (name, r) =>
    if headingRest1 r then some ⟨name, false⟩
    else if headingRest2 r then some ⟨name, true⟩
    else none

/-- The block-terminator regex `^##[#]? [A-Za-z]` of `extractFunctionBlock`
(parser.js line 107). -/
def isBlockEnd (line : String) : Bool :=
  match line.data with
  | '#' :: '#' :: '#' :: ' ' :: c :: _ => regAlpha c
  | '#' :: '#' :: ' ' :: c :: _ => regAlpha c
  | _ => false

/-- The nine category sections of `buildCategoryMap` (parser.js lines
143-153); each pattern `## <label> functions` is tested with `RegExp.test`
under the `i` flag, i.e. case-insensitive substring search.  The patterns
are stored lower-cased. -/
def categoryDefs : List (String × String) :=
  [ ("String", "## string functions")
  , ("Collection", "## collection functions")
  , ("Logical comparison", "## logical comparison functions")
  , ("Conversion", "## conversion functions")
  , ("Math", "## math functions")
  , ("Date and time", "## date and time functions")
  , ("Workflow", "## workflow functions")
  , ("URI parsing", "## uri parsing functions")
  , ("Manipulation", "## manipulation functions") ]

/-- Try the table-row function-name regex `\| \[([a-zA-Z][a-zA-Z0-9]*)\]`
at the current position. -/
def tableNameAt (l : List Char) : Option String :=
  match l with
  | '|' :: ' ' :: '[' :: c :: rest =>
    if regAlpha c then
      let run := rest.takeWhile regAlnum
      match rest.drop run.length with
      | ']' :: _ => some (String.mk (c :: run))
      | _ => none
    else none
  | _ => none

/-- Leftmost match of the table-row function-name regex (JS
`sLine.match(...)` captures the first match). -/
def findTableFuncName : List Char → Option String
  | [] => none
  | c :: rest =>
    match tableNameAt (c :: rest) with
    | some n => some n
    | none => findTableFuncName rest

/-! ### `cleanMarkdown` (parser.js lines 494-504)

Seven successive global regex replaces, then a trim.  Each replace is a
left-to-right single pass (a JS global replace never rescans the text it
has emitted); each pass is embedded with fuel equal to the input length,
which suffices because every step consumes at least one input character. -/

/-- The backtick character (U+0060), used by the inline-code pattern. -/
def btick : Char := Char.ofNat 96

/-- Attempt the tail of the link pattern `\[([^\]]+)\]\([^)]+\)` after an
opening `[`: the captured text, and the rest of the input after the
closing `)`. -/
def tryLink (rest : List Char) : Option (List Char × List Char) :=
  let t := rest.takeWhile (· ≠ ']')
  if t.isEmpty then none
  else
    match rest.drop t.length with
    | ']' :: '(' :: r2 =>
      let u := r2.takeWhile (· ≠ ')')
      if u.isEmpty then none
      else
        match r2.drop u.length with
        | ')' :: r3 => some (t, r3)
        | _ => none
    | _ => none

/-- Global replace of `\[([^\]]+)\]\([^)]+\)` by the captured text. -/
def replLinks : Nat → List Char → List Char
  | 0, l => l
  | _, [] => []
  | fuel + 1, '[' :: rest =>
    match tryLink rest with
    | some (t, r) => t ++ replLinks fuel r
    | none => '[' :: replLinks fuel rest
  | fuel + 1, c :: rest => c :: replLinks fuel rest

/-- Attempt the tail of `<br\s*/?>` (flag `i`) after an opening `<`. -/
def tryBr (rest : List Char) : Option (List Char) :=
  match rest with
  | b :: r :: r2 =>
    if lowerAscii b = 'b' ∧ lowerAscii r = 'r' then
      match r2.dropWhile jsWs with
      | '/' :: '>' :: r3 => some r3
      | '>' :: r3 => some r3
      | _ => none
    else none
  | _ => none

/-- Global replace of `<br\s*/?>` by one space. -/
def replBr : Nat → List Char → List Char
  | 0, l => l
  | _, [] => []
  | fuel + 1, '<' :: rest =>
    match tryBr rest with
    | some r => ' ' :: replBr fuel r
    | none => '<' :: replBr fuel rest
  | fuel + 1, c :: rest => c :: replBr fuel rest

/-- Global replace of `<[^>]+>` by the empty string. -/
def replTags : Nat → List Char → List Char
  | 0, l => l
  | _, [] => []
  | fuel + 1, '<' :: rest =>
    let t := rest.takeWhile (· ≠ '>')
    if t.isEmpty then '<' :: replTags fuel rest
    else
      match rest.drop t.length with
      | '>' :: r => replTags fuel r
      | _ => '<' :: replTags fuel rest
  | fuel + 1, c :: rest => c :: replTags fuel rest

/-- Attempt the tail of a delimited-emphasis pattern after its opening
delimiter(s): one or more non-delimiter characters followed by the
closing delimiter sequence `close`. -/
def tryDelim (d : Char) (close : List Char) (rest : List Char) :
    Option (List Char × List Char) :=
  let t := rest.takeWhile (· ≠ d)
  if t.isEmpty then none
  else
    match close, rest.drop t.length with
    | [c1], x :: r => if x = c1 then some (t, r) else none
    | [c1, c2], x :: y :: r => if x = c1 ∧ y = c2 then some (t, r) else none
    | _, _ => none

/-- Global replace of `\*\*([^*]+)\*\*` by the captured text.  On failure
the scan advances by one character, so the second `*` is re-examined. -/
def replBold : Nat → List Char → List Char
  | 0, l => l
  | _, [] => []
  | fuel + 1, '*' :: rest =>
    match rest with
    | '*' :: rest2 =>
      match tryDelim '*' ['*', '*'] rest2 with
      | some (t, r) => t ++ replBold fuel r
      | none => '*' :: replBold fuel rest
    | _ => '*' :: replBold fuel rest
  | fuel + 1, c :: rest => c :: replBold fuel rest

/-- Global replace of `\*([^*]+)\*` by the captured text. -/
def replItal : Nat → List Char → List Char
  | 0, l => l
  | _, [] => []
  | fuel + 1, '*' :: rest =>
    match tryDelim '*' ['*'] rest with
    | some (t, r) => t ++ replItal fuel r
    | none => '*' :: replItal fuel rest
  | fuel + 1, c :: rest => c :: replItal fuel rest

/-- Global replace of the inline-code pattern (backtick, one or more
non-backtick characters, backtick) by the captured text. -/
def replCode : Nat → List Char → List Char
  | 0, l => l
  | _, [] => []
  | fuel + 1, c :: rest =>
    if c = btick then
      match tryDelim btick [btick] rest with
      | some (t, r) => t ++ replCode fuel r
      | none => c :: replCode fuel rest
    else c :: replCode fuel rest

/-- Global replace of `\s+` by one space (collapse whitespace runs). -/
def collapseWs : Nat → List Char → List Char
  | 0, l => l
  | _, [] => []
  | fuel + 1, c :: rest =>
    if jsWs c then ' ' :: collapseWs fuel (rest.dropWhile jsWs)
    else c :: collapseWs fuel rest

/-- `cleanMarkdown` (parser.js lines 494-504): strip links, `<br>` tags,
other HTML tags, bold, italic and inline-code markers, collapse
whitespace, and trim. -/
def cleanMarkdown (s : String) : String :=
  let l1 := replLinks s.data.length s.data
  let l2 := replBr l1.length l1
  let l3 := replTags l2.length l2
  let l4 := replBold l3.length l3
  let l5 := replItal l4.length l4
  let l6 := replCode l5.length l5
  jtrim (String.mk (collapseWs l6.length l6))

/-! ### Parameter rows (`parseTableRow`, parser.js lines 364-407) -/

/-- A parsed parameter. -/
structure Param where
  sName : String
  bRequired : Bool
  sType : String
  sDescription : String
  deriving DecidableEq, Repr

/-- The cells of a table row: JS `sRow.split("|")` followed by discarding
every cell that is blank after trimming (parser.js line 365). -/
def rowCells (row : String) : List String :=
  (splitChar '|' row).filter (fun s => jtrim s ≠ "")

/-- The name-cell cleaning chain of `parseTableRow` (lines 373-378):
global replaces of `<\*`, `\*>`, `[<>]` and `\*` by the empty string,
then a trim.  Each replace is a single left-to-right pass. -/
def replLtStar : List Char → List Char
  | '<' :: '*' :: rest => replLtStar rest
  | c :: rest => c :: replLtStar rest
  | [] => []

/-- Global replace of the two-character literal `*>` by the empty string. -/
def replStarGt : List Char → List Char
  | '*' :: '>' :: rest => replStarGt rest
  | c :: rest => c :: replStarGt rest
  | [] => []

/-- The full name-cell cleaning chain (parser.js lines 373-378). -/
def cleanParamName (raw : String) : String :=
  let l1 := replLtStar raw.data
  let l2 := replStarGt l1
  let l3 := l2.filter (fun c => c ≠ '<' ∧ c ≠ '>')
  let l4 := l3.filter (fun c => c ≠ '*')
  jtrim (String.mk l4)

/-- JS `sCleanName.split(/,\s*/)`: each separator match is one comma plus
the greedy whitespace run following it.  Since the whitespace class does
not contain the comma, the separator matches start exactly at the commas,
so the split equals a split at every comma followed by removing the
leading whitespace of every piece after the first. -/
def splitCommaWs (s : String) : List String :=
  match splitChar ',' s with
  | [] => []
  | p :: ps => p :: ps.map (fun q => String.mk (q.data.dropWhile jsWs))

/-- `parseTableRow` (parser.js lines 364-407).  A JS return value of an
array is `.inl`, a single object `.inr`, and `null` is `none`. -/
def parseTableRow (row : String) : Option (List Param ⊕ Param) :=
  let cells := rowCells row
  if 4 ≤ cells.length then
    let sRawName := jtrim (cells.getD 0 "")
    let sRequired := jtrim (cells.getD 1 "")
    let sType := jtrim (cells.getD 2 "")
    let sDescription := cleanMarkdown (jtrim (cells.getD 3 ""))
    let sCleanName := cleanParamName sRawName
    let aNames := splitCommaWs sCleanName
    if 1 < aNames.length ∧ containsSub sCleanName "..." = false then
      some (Sum.inl (aNames.filterMap (fun nm =>
        let n := jtrim nm
        if n ≠ "" ∧ n ≠ "..." then
          some ⟨n, decide (sRequired = "Yes"), sType, sDescription⟩
        else none)))
    else
      some (Sum.inr ⟨sCleanName, decide (sRequired = "Yes"), sType, sDescription⟩)
  else none

/-- The flattening `extractParameters` applies to a `parseTableRow` result
(parser.js lines 342-351). -/
def flattenRow : Option (List Param ⊕ Param) → List Param
  | some (Sum.inl ps) => ps
  | some (Sum.inr p) => [p]
  | none => []

/-- `extractParameters` (parser.js lines 310-356): the rows of the first
table whose header contains `"| Parameter"`, separator rows skipped,
ended by a blank or pipe-free line or a `"| Return"` header.  The unused
`iHeaderRowsSeen` counter is omitted. -/
def paramsLoop : List String → Bool → List Param → List Param
  | [], _, acc => acc
  | l :: rest, inTable, acc =>
    let sLine := jtrim l
    if containsSub sLine "| Parameter" then paramsLoop rest true acc
    else if inTable then
      if containsSub sLine "| ---" then paramsLoop rest true acc
      else if sLine = "" ∨ (containsSub sLine "|" = false ∧
          containsSub sLine "| Return" = false) then acc
      else if containsSub sLine "| Return" then acc
      else paramsLoop rest true (acc ++ flattenRow (parseTableRow sLine))
    else paramsLoop rest false acc

/-- `extractParameters` entry point. -/
def extractParameters (block : List String) : List Param :=
  paramsLoop block false []

/-- `extractReturnInfo` (parser.js lines 414-443): the first data row of
the first table whose header contains `"| Return value"` or
`"| Return Value"`; fewer than three non-blank cells, or no such table,
yields empty strings. -/
def returnLoop : List String → Bool → String × String
  | [], _ => ("", "")
  | l :: rest, inTable =>
    let sLine := jtrim l
    if containsSub sLine "| Return value" ∨ containsSub sLine "| Return Value" then
      returnLoop rest true
    else if inTable then
      if containsSub sLine "| ---" then returnLoop rest true
      else if containsSub sLine "|" then
        let cells := (splitChar '|' sLine).filter (fun s => jtrim s ≠ "")
        if 3 ≤ cells.length then
          (cleanMarkdown (jtrim (cells.getD 1 "")),
           cleanMarkdown (jtrim (cells.getD 2 "")))
        else ("", "")
      else ("", "")
    else returnLoop rest false

/-- `extractReturnInfo` entry point. -/
def extractReturnInfo (block : List String) : String × String :=
  returnLoop block false

/-- `extractSyntax` (parser.js lines 283-303): collect the trimmed lines
strictly between the first fence line (a line containing three backticks)
and the next one. -/
def syntaxLoop : List String → Bool → List String → List String
  | [], _, acc => acc
  | l :: rest, inCode, acc =>
    let sLine := jtrim l
    if containsSub sLine "```" ∧ inCode = false then syntaxLoop rest true acc
    else if containsSub sLine "```" ∧ inCode then acc
    else if inCode then syntaxLoop rest true (acc ++ [jtrim l])
    else syntaxLoop rest false acc

/-- `extractSyntax` entry point: the collected lines joined with newlines
and trimmed as a whole. -/
def extractSyntax (block : List String) : String :=
  jtrim (jsJoin "\n" (syntaxLoop block false []))

/-- `extractExamples` (parser.js lines 450-487): after a line containing
`"*Example"`, the contents of the first fenced block are captured as one
example (the per-header counter prevents later fences under the same
header from being captured; a new `"*Example"` line resets it). -/
def examplesLoop : List String → Bool → Bool → Nat → List String → List String → List String
  | [], _, _, _, _, exs => exs
  | l :: rest, found, inCode, cbCount, cur, exs =>
    let sLine := jtrim l
    if containsSub sLine "*Example" then examplesLoop rest true inCode 0 cur exs
    else if found then
      if containsSub sLine "```" ∧ inCode = false then
        examplesLoop rest found true cbCount cur exs
      else if containsSub sLine "```" ∧ inCode then
        if cbCount + 1 = 1 ∧ cur ≠ [] then
          examplesLoop rest found false (cbCount + 1) []
            (exs ++ [jsJoin "\n" cur])
        else examplesLoop rest found false (cbCount + 1) cur exs
      else if inCode ∧ cbCount = 0 then
        examplesLoop rest found inCode cbCount (cur ++ [jtrim l]) exs
      else examplesLoop rest found inCode cbCount cur exs
    else examplesLoop rest found inCode cbCount cur exs

/-- `extractExamples` entry point. -/
def extractExamples (block : List String) : List String :=
  examplesLoop block false false 0 [] []

/-! ### Description extraction (`extractDescription`, parser.js lines 191-276) -/

/-- JS `sLine.indexOf(">") !== 0` is false exactly when the (trimmed) line
starts with `>`. -/
def lineStartsGt (s : String) : Bool :=
  s.data.head? = some '>'

/-- `findNextNonEmpty` (parser.js lines 269-276); JS `-1` is `none`. -/
def findNextNonEmpty (block : List String) (iStart : Nat) : Option Nat :=
  match (block.drop iStart).findIdx? (fun l => jtrim l ≠ "") with
  | some j => some (iStart + j)
  | none => none

/-- The `while` loop of `skipNoteBlock` (parser.js lines 248-261), with
fuel; the loop runs at most `block.length` iterations because the index
only increases. -/
def skipNoteBlockGo (block : List String) : Nat → Nat → Nat
  | 0, i => i - 1
  | fuel + 1, i =>
    if i < block.length then
      let sLine := jtrim (block.getD i "")
      if lineStartsGt sLine = false ∧ sLine ≠ "" then i - 1
      else if sLine = "" ∧ i + 1 < block.length ∧
          lineStartsGt (jtrim (block.getD (i + 1) "")) = false then i
      else skipNoteBlockGo block fuel (i + 1)
    else i - 1

/-- `skipNoteBlock` entry point (the JS loop starts at `iStart + 1`). -/
def skipNoteBlock (block : List String) (iStart : Nat) : Nat :=
  skipNoteBlockGo block (block.length + 1) (iStart + 1)

/-- The `for` loop of `extractDescription` (parser.js lines 195-237).  The
two `bStarted` phases of the JS loop body are laid out in sequence: when
none of the not-yet-started guards fires, `bStarted` is set and the same
line is processed by the started phase of the same iteration.  Fuel:
every iteration advances the index by at least one (`skipNoteBlock`
never returns an index below its argument). -/
def descLoop (block : List String) : Nat → Nat → Bool → List String → List String
  | 0, _, _, acc => acc
  | fuel + 1, i, started, acc =>
    if i < block.length then
      let sLine := jtrim (block.getD i "")
      if started = false ∧ (sLine = "" ∨ containsSub sLine "<a name=") then
        descLoop block fuel (i + 1) started acc
      else if started = false ∧ containsSub sLine "```" then acc
      else if started = false ∧
          (containsSub sLine "| Parameter" ∨ containsSub sLine "| Return") then acc
      else if started = false ∧ containsSub sLine "> [!NOTE]" then
        descLoop block fuel (skipNoteBlock block i + 1) started acc
      else if containsSub sLine "```" then acc
      else if containsSub sLine "| Parameter" ∨ containsSub sLine "| Return" then acc
      else if sLine = "" then
        match findNextNonEmpty block (i + 1) with
        | some iNext =>
          if containsSub (jtrim (block.getD iNext "")) "```" ∨
              containsSub (jtrim (block.getD iNext "")) "| " then acc
          else if acc ≠ [] then descLoop block fuel (i + 1) true (acc ++ [""])
          else descLoop block fuel (i + 1) true acc
        | none =>
          if acc ≠ [] then descLoop block fuel (i + 1) true (acc ++ [""])
          else descLoop block fuel (i + 1) true acc
      else descLoop block fuel (i + 1) true (acc ++ [sLine])
    else acc

/-- `extractDescription` entry point (parser.js line 239). -/
def extractDescription (block : List String) : String :=
  cleanMarkdown (jtrim (jsJoin " "
    (descLoop block (block.length + 1) 0 false [])))

/-! ### Category map (`buildCategoryMap`, parser.js lines 141-184) -/

/-- The category-heading scan of one line: the first matching of the nine
section patterns replaces the current category (the JS inner loop breaks
on the first hit). -/
def catHeadingUpdate (line : String) (cur : String) : String :=
  match categoryDefs.find? (fun cd => containsSubCi line cd.2) with
  | some cd => cd.1
  | none => cur

/-- The line loop of `buildCategoryMap`: update the current category,
stop at the anchor line, and register `| [name](...)` rows while a
category is active.  A JS property write `oMap[name] = cat` overwrites
any earlier value; the map is embedded as the append-only list of writes
and read through a last-write-wins lookup. -/
def buildLoop : List String → String → List (String × String) → List (String × String)
  | [], _, m => m
  | line :: rest, cur, m =>
    let cur2 := catHeadingUpdate line cur
    if isAnchorLine line then m
    else
      let m2 :=
        if cur2 ≠ "" ∧ containsSub line "|" then
          match findTableFuncName line.data with
          | some n => m ++ [(n, cur2)]
          | none => m
        else m
      buildLoop rest cur2 m2

/-- `buildCategoryMap` entry point. -/
def buildCategoryMap (content : String) : List (String × String) :=
  buildLoop (splitNl content) "" []

/-- A value read from the JS category dictionary: either a string that
was written into it, or one of the function members inherited from
`Object.prototype` (the dictionary is the object literal `{}`). -/
inductive CatVal where
  | str (s : String)
  | protoFn (s : String)
  deriving DecidableEq, Repr

/-- The identifier-named members of `Object.prototype` that a property
read on `{}` can find when no own property exists.  (The remaining
members, such as `__proto__`, start with an underscore and are
unreachable here: every key looked up is a heading name matching
`[a-zA-Z][a-zA-Z0-9]*`.) -/
def objectProtoMembers : List String :=
  ["constructor", "hasOwnProperty", "isPrototypeOf", "propertyIsEnumerable",
   "toLocaleString", "toString", "valueOf"]

/-- JS `oMap[k]`: the last value written for `k`, or an inherited
`Object.prototype` member, or `undefined` (`none`). -/
def jsMapGet (m : List (String × String)) (k : String) : Option CatVal :=
  match m.reverse.find? (fun p => p.1 = k) with
  | some p => some (.str p.2)
  | none => if k ∈ objectProtoMembers then some (.protoFn k) else none

/-- JS truthiness of a category value (`""` is falsy, a function is
truthy). -/
def catTruthy : CatVal → Bool
  | .str s => s ≠ ""
  | .protoFn _ => true

/-- `oCategoryMap[sName] || "Other"` (parser.js line 119). -/
def categoryOf (m : List (String × String)) (name : String) : CatVal :=
  match jsMapGet m name with
  | some v => if catTruthy v then v else .str "Other"
  | none => .str "Other"

/-! ### Function blocks and the main loop (parser.js lines 10-44, 88-134) -/

/-- The deny-list of `extractFunctionBlock` (parser.js line 98). -/
def aSkipNames : List String :=
  ["Base64", "Implicit", "Considerations"]

/-- One parsed function entry. -/
structure FunctionDefinition where
  sName : String
  sDescription : String
  sSyntax : String
  aParameters : List Param
  sReturnType : String
  sReturnDescription : String
  sCategory : CatVal
  aExamples : List String
  bDeprecated : Bool
  deriving DecidableEq, Repr

/-- The block of a heading, given the lines after the heading line
(parser.js lines 104-113): the scan starts at `iStartIndex + 1` and can
break only at an index strictly greater than that, so the first line
after the heading is always included, and the block then extends up to
the first following block-terminator line. -/
def blockOf : List String → List String
  | [] => []
  | l :: ls => l :: ls.takeWhile (fun s => isBlockEnd s = false)

/-- Assembly of one `FunctionDefinition` from a heading and its block
(parser.js lines 114-131). -/
def mkFunc (h : Heading) (block : List String) (m : List (String × String)) :
    FunctionDefinition :=
  { sName := h.sName
    sDescription := extractDescription block
    sSyntax := extractSyntax block
    aParameters := extractParameters block
    sReturnType := (extractReturnInfo block).1
    sReturnDescription := (extractReturnInfo block).2
    sCategory := categoryOf m h.sName
    aExamples := extractExamples block
    bDeprecated := h.bDeprecated }

/-- The `while` loop of `parseFunctionReference` (parser.js lines 27-41),
expressed on the suffix of lines starting at the current index.  A
non-heading line and a deny-listed heading advance by one line; an
accepted heading emits its entry and jumps to the end of its block
(`iNextIndex = iEndIndex`).  Fuel: every iteration consumes at least one
line. -/
def parseLoopF (m : List (String × String)) : Nat → List String → List FunctionDefinition
  | 0, _ => []
  | _, [] => []
  | fuel + 1, line :: rest =>
    match matchFunctionHeading line with
    | none => parseLoopF m fuel rest
    | some h =>
      if h.sName ∈ aSkipNames then parseLoopF m fuel rest
      else
        let block := blockOf rest
        mkFunc h block m :: parseLoopF m fuel (rest.drop block.length)

/-- The main loop with sufficient fuel. -/
def parseLoop (m : List (String × String)) (lines : List String) :
    List FunctionDefinition :=
  parseLoopF m (lines.length + 1) lines

/-- `parseFunctionReference` (parser.js lines 10-44) on the document text
(the `fs.readFileSync` call is the caller's input boundary).  The JS
guard `if (iAlphaStart < 0) return []` is unreachable because
`findAlphabeticalListStart` returns `0` when no marker line exists. -/
def parseFunctionReference (content : String) : List FunctionDefinition :=
  let lines := splitNl content
  let m := buildCategoryMap content
  let iAlphaStart := findAlphabeticalListStart lines
  parseLoop m (lines.drop iAlphaStart)


/-! ### Specification-side definitions

These definitions restate parts of the specification in its own words;
they are compared against the embedded code, never used by it. -/

/-- The name of an accepted heading line: the heading regex matches and
the name is not on the deny-list.  (Used to state which lines produce
entries.) -/
def acceptedNameOf (line : String) : Option String :=
  match matchFunctionHeading line with
  | some h => if h.sName ∈ aSkipNames then none else some h.sName
  | none => none

/-- The lines strictly inside the first fenced code block of a section:
everything after the first fence line (a line whose trimmed form contains
three backticks) up to but excluding the next fence line. -/
def fenceInterior (block : List String) : List String :=
  match block.dropWhile (fun l => containsSub (jtrim l) "```" = false) with
  | [] => []
  | _ :: rest => rest.takeWhile (fun l => containsSub (jtrim l) "```" = false)

/-- The specification's reading of the syntax field: the text inside the
first fenced code block, verbatim (interior lines unchanged), joined with
newlines and trimmed as a whole. -/
def syntaxVerbatimSpec (block : List String) : String :=
  jtrim (jsJoin "\n" (fenceInterior block))

/-- The category-table scan with the anchor-line stop removed: the scan
that registers rows over the whole document. -/
def buildLoopNoStop : List String → String → List (String × String) → List (String × String)
  | [], _, m => m
  | line :: rest, cur, m =>
    let cur2 := catHeadingUpdate line cur
    let m2 :=
      if cur2 ≠ "" ∧ containsSub line "|" then
        match findTableFuncName line.data with
        | some n => m ++ [(n, cur2)]
        | none => m
      else m
    buildLoopNoStop rest cur2 m2

/-- The whole-document category scan. -/
def categoryScanAll (content : String) : List (String × String) :=
  buildLoopNoStop (splitNl content) "" []

/-- A string free of JS whitespace characters (in particular free of
newlines), such as a call form `add(`. -/
def wsFree (s : String) : Prop :=
  ∀ c ∈ s.data, jsWs c = false

/-- Character-level form of joining lines with newlines (the character
data of `jsJoin "\n"`). -/
def charJoinNl : List (List Char) → List Char
  | [] => []
  | [x] => x
  | x :: y :: xs => x ++ '\n' :: charJoinNl (y :: xs)

/-- The ten category labels the specification allows. -/
def specCategoryLabels : List String :=
  ["String", "Collection", "Logical comparison", "Conversion", "Math",
   "Date and time", "Workflow", "URI parsing", "Manipulation", "Other"]

/-! ### Concrete documents used by the theorems -/

/-- A document whose only heading is exactly of the form
`### name (deprecated)`. -/
def docDeprecatedHeading : String :=
  "<a name=\"alphabetical-list\"></a>\n" ++
  "### value (deprecated)\n" ++
  "Returns a value.\n"

/-- A document with a category summary table but no anchor marker line. -/
def docNoAnchor : String :=
  "## String functions\n" ++
  "| [concat](#concat) | Combines strings. |\n" ++
  "### concat\n" ++
  "Combines.\n"

/-- A document in which one accepted heading sits on the line immediately
after another accepted heading. -/
def docAdjacentHeadings : String :=
  "<a name=\"alphabetical-list\"></a>\n" ++
  "### alpha\n" ++
  "### beta\n" ++
  "some text\n"

/-- A document with a heading named after an `Object.prototype` member
that no summary table lists. -/
def docProtoName : String :=
  "## Math functions\n" ++
  "| [add](#add) | Adds. |\n" ++
  "<a name=\"alphabetical-list\"></a>\n" ++
  "### toString\n" ++
  "Converts to string.\n" ++
  "### add\n" ++
  "Adds.\n"

/-- A document whose summary tables list `chunk`, `length` and `item`
under two category sections each, as the bundled reference document
does. -/
def docDuplicateRows : String :=
  "## String functions\n" ++
  "| [chunk](#chunk) | Splits. |\n" ++
  "| [length](#length) | Len. |\n" ++
  "## Collection functions\n" ++
  "| [chunk](#chunk) | Splits. |\n" ++
  "| [length](#length) | Len. |\n" ++
  "| [item](#item) | Item. |\n" ++
  "## Workflow functions\n" ++
  "| [item](#item) | Item. |\n" ++
  "<a name=\"alphabetical-list\"></a>\n" ++
  "### chunk\n" ++
  "x\n" ++
  "### length\n" ++
  "x\n" ++
  "### item\n" ++
  "x\n"

/-- A document with a duplicated heading name, headings separated by
body lines, and a deny-listed heading. -/
def docDuplicateName : String :=
  "<a name=\"alphabetical-list\"></a>\n" ++
  "### add\nbody\n### add\nbody\n### Base64\nbody"

/-! ### Claim theorems -/

/-- C1: for a heading line of exactly the form `### name (deprecated)`
the parser produces `deprecated = false`, not `true` as the claim and the
code's own comment (`// Also match "### functionName (deprecated)" style`)
state: the first heading regex, which permits an arbitrary trailing
parenthesised group and never sets the flag, already matches such lines,
so the `(deprecated)` branch is unreachable for them (it fires only when
further text follows the marker). -/
theorem c1_deprecated_heading_flag_is_false :
    matchFunctionHeading "### value (deprecated)" = some ⟨"value", false⟩ ∧
    matchFunctionHeading "### value (Deprecated) use something else" =
      some ⟨"value", true⟩ ∧
    (parseFunctionReference docDeprecatedHeading).map
      (fun f => (f.sName, f.bDeprecated)) = [("value", false)] := by
  refine ⟨by decide, by decide, by decide⟩

/-- C8 (counterpart of the claimed invariant): on a document whose
detailed section documents a function named `toString` that no summary
table lists, the category lookup `oCategoryMap[sName] || "Other"` finds
the inherited, truthy `Object.prototype.toString` function instead of
falling back to `"Other"`, so the entry's category is not any string
label at all — the claim's ten-label invariant fails. -/
theorem c8_category_prototype_leak :
    (parseFunctionReference docProtoName).map (fun f => (f.sName, f.sCategory)) =
      [("toString", CatVal.protoFn "toString"), ("add", CatVal.str "Math")] ∧
    (∀ s : String, CatVal.protoFn "toString" ≠ CatVal.str s) := by
  exact ⟨by decide, fun s h => CatVal.noConfusion h⟩

/-- C9: when `chunk`, `length` and `item` each appear as summary-table
rows under two category sections before the anchor marker, the
name-to-category table keeps the category of the last such row in
document order, and the parsed entries are tagged with those
last-listed categories. -/
theorem c9_last_summary_row_wins :
    (parseFunctionReference docDuplicateRows).map (fun f => (f.sName, f.sCategory)) =
      [("chunk", CatVal.str "Collection"), ("length", CatVal.str "Collection"),
       ("item", CatVal.str "Workflow")] := by
  decide

/-- C10: a parameter-table row with the expected four columns but one
blank cell is counted as having three cells after the blank-cell filter,
so it produces no `Parameter` at all, silently. -/
theorem c10_blank_cell_row_dropped :
    (rowCells "| name | Yes | String | |").length = 3 ∧
    parseTableRow "| name | Yes | String | |" = none ∧
    extractParameters
      ["| Parameter | Required | Type | Description |",
       "| --- | --- | --- | --- |",
       "| name | Yes | String | |"] = [] := by
  refine ⟨by decide, by decide, by decide⟩

/-- Helper: the category-line scan never stops when no line is an anchor
line, so it agrees with the whole-document scan. -/
theorem buildLoop_eq_noStop (lines : List String) :
    ∀ (cur : String) (m : List (String × String)),
    (∀ l ∈ lines, isAnchorLine l = false) →
    buildLoop lines cur m = buildLoopNoStop lines cur m := by
  induction lines with
  | nil => intro cur m _; rfl
  | cons line rest ih =>
    intro cur m h
    have h1 : isAnchorLine line = false := h line (List.mem_cons_self _ _)
    simp only [buildLoop, buildLoopNoStop, h1, Bool.false_eq_true, if_false]
    exact ih _ _ (fun l hl => h l (List.mem_cons_of_mem _ hl))

/-- C2 (counterexample): a document with a category summary table but no
anchor marker line still resolves categories — the name-to-category
table is not empty and the parsed entry is tagged `String`, not
`Other`. -/
theorem c2_no_anchor_categories_still_resolved_cex :
    (∀ l ∈ splitNl docNoAnchor, isAnchorLine l = false) ∧
    buildCategoryMap docNoAnchor = [("concat", "String")] ∧
    (parseFunctionReference docNoAnchor).map (fun f => (f.sName, f.sCategory)) =
      [("concat", CatVal.str "String")] := by
  refine ⟨by decide, by decide, by decide⟩

/-- C2 (amended): when a document contains no anchor marker line, pass 2
does start at line 0 and scans the whole document; pass 1, however, also
scans the whole document and resolves categories as usual (its scan
equals the stop-free whole-document scan), so the name-to-category table
need not be empty. -/
theorem c2_no_anchor_whole_document_scanned (doc : String)
    (h : ∀ l ∈ splitNl doc, isAnchorLine l = false) :
    findAlphabeticalListStart (splitNl doc) = 0 ∧
    buildCategoryMap doc = categoryScanAll doc ∧
    parseFunctionReference doc = parseLoop (buildCategoryMap doc) (splitNl doc) := by
  have hfind : (splitNl doc).findIdx? (fun l => isAnchorLine l) = none :=
    List.findIdx?_eq_none_iff.mpr h
  have hstart : findAlphabeticalListStart (splitNl doc) = 0 := by
    simp [findAlphabeticalListStart, hfind]
  refine ⟨hstart, buildLoop_eq_noStop _ _ _ h, ?_⟩
  simp [parseFunctionReference, hstart]

/-- C2 witness: the amended statement at a concrete anchor-free
document. -/
theorem c2_no_anchor_whole_document_scanned_witness :
    findAlphabeticalListStart (splitNl "hello\nworld") = 0 ∧
    buildCategoryMap "hello\nworld" = categoryScanAll "hello\nworld" ∧
    parseFunctionReference "hello\nworld" =
      parseLoop (buildCategoryMap "hello\nworld") (splitNl "hello\nworld") :=
  c2_no_anchor_whole_document_scanned "hello\nworld" (by decide)

/-- Helper: the main loop yields no entries when no line is an accepted
heading (any fuel). -/
theorem parseLoopF_eq_nil_of_no_accepted (m : List (String × String)) :
    ∀ (fuel : Nat) (lines : List String),
    (∀ l ∈ lines, acceptedNameOf l = none) → parseLoopF m fuel lines = [] := by
  intro fuel
  induction fuel with
  | zero => intro lines _; simp [parseLoopF]
  | succ fuel ih =>
    intro lines h
    match lines with
    | [] => simp [parseLoopF]
    | line :: rest =>
      have hline := h line (List.mem_cons_self _ _)
      have hrest : ∀ l ∈ rest, acceptedNameOf l = none :=
        fun l hl => h l (List.mem_cons_of_mem _ hl)
      cases hm : matchFunctionHeading line with
      | none => simpa [parseLoopF, hm] using ih rest hrest
      | some hd =>
        by_cases hskip : hd.sName ∈ aSkipNames
        · simpa [parseLoopF, hm, hskip] using ih rest hrest
        · exfalso
          have : acceptedNameOf line = some hd.sName := by
            simp [acceptedNameOf, hm, hskip]
          rw [hline] at this
          exact Option.noConfusion this

/-- C5: `parseFunctionReference` is a total function of the document
text (it is defined for every input string as a Lean function, so the
embedding terminates on all inputs by construction); the empty document
yields the empty list, and so does every document without an accepted
`### name` heading. -/
theorem c5_parse_total_and_empty_without_headings :
    parseFunctionReference "" = [] ∧
    ∀ doc : String, (∀ l ∈ splitNl doc, acceptedNameOf l = none) →
      parseFunctionReference doc = [] := by
  refine ⟨by decide, ?_⟩
  intro doc h
  have hdrop : ∀ l ∈ (splitNl doc).drop (findAlphabeticalListStart (splitNl doc)),
      acceptedNameOf l = none :=
    fun l hl => h l (List.drop_subset _ _ hl)
  simpa [parseFunctionReference, parseLoop] using
    parseLoopF_eq_nil_of_no_accepted _ _ _ hdrop

/-- C5 witness: the statement applied to a concrete heading-free
document. -/
theorem c5_parse_total_and_empty_without_headings_witness :
    parseFunctionReference "hello\n## Math functions\n| [add](#add) | x |" = [] :=
  c5_parse_total_and_empty_without_headings.2
    "hello\n## Math functions\n| [add](#add) | x |" (by decide)

/-- Helper: a `filterMap` whose guard holds on every element is a
`map`. -/
theorem filterMap_if_eq_map {α β : Type} (p : α → Prop) [DecidablePred p]
    (g : α → β) :
    ∀ l : List α, (∀ a ∈ l, p a) →
    l.filterMap (fun a => if p a then some (g a) else none) = l.map g := by
  intro l
  induction l with
  | nil => intro _; rfl
  | cons a t ih =>
    intro h
    have ha : p a := h a (List.mem_cons_self _ _)
    simp only [List.filterMap_cons, List.map_cons, if_pos ha]
    rw [ih (fun b hb => h b (List.mem_cons_of_mem _ hb))]

/-- C7: every `Parameter` produced from a table row has
`required = true` exactly when the row's second surviving cell, trimmed,
is the literal `"Yes"` with that exact casing; any other value yields
`required = false`. -/
theorem c7_required_exact_yes (row c0 c1 c2 c3 : String) (rest : List String)
    (hcells : rowCells row = c0 :: c1 :: c2 :: c3 :: rest) :
    ∀ p ∈ flattenRow (parseTableRow row), (p.bRequired = true ↔ jtrim c1 = "Yes") := by
  intro p hp
  simp only [parseTableRow, hcells] at hp
  have hlen : 4 ≤ (c0 :: c1 :: c2 :: c3 :: rest).length := by
    simp [List.length_cons]
  rw [if_pos hlen] at hp
  simp only [List.getD_cons_zero, List.getD_cons_succ] at hp
  by_cases hcond : 1 < (splitCommaWs (cleanParamName (jtrim c0))).length ∧
      containsSub (cleanParamName (jtrim c0)) "..." = false
  · rw [if_pos hcond] at hp
    simp only [flattenRow, List.mem_filterMap] at hp
    obtain ⟨nm, _, hnm⟩ := hp
    by_cases hg : jtrim nm ≠ "" ∧ jtrim nm ≠ "..."
    · rw [if_pos hg] at hnm
      cases hnm
      simp
    · rw [if_neg hg] at hnm
      exact Option.noConfusion hnm
  · rw [if_neg hcond] at hp
    simp only [flattenRow, List.mem_singleton] at hp
    subst hp
    simp

/-- C7 witness: a concrete row with second cell `"Yes"`. -/
theorem c7_required_exact_yes_witness :
    (Param.mk "count" true "Integer" "N." |>.bRequired) = true ↔
      jtrim " Yes " = "Yes" :=
  c7_required_exact_yes "| count | Yes | Integer | N. |"
    " count " " Yes " " Integer " " N. " [] (by decide)
    ⟨"count", true, "Integer", "N."⟩ (by decide)

/-- C6: a parameter-table row whose cleaned name cell lists several
comma-separated names and carries no variadic marker `"..."` expands
into one `Parameter` per name, in left-to-right order, all sharing the
row's required/type/description values; and a name cell containing
`"..."` is never split — it yields a single `Parameter` carrying the
whole cleaned cell literally. -/
theorem c6_multi_name_row_expansion (row c0 c1 c2 c3 : String) (rest : List String)
    (hcells : rowCells row = c0 :: c1 :: c2 :: c3 :: rest) :
    (1 < (splitCommaWs (cleanParamName (jtrim c0))).length →
      containsSub (cleanParamName (jtrim c0)) "..." = false →
      (∀ nm ∈ splitCommaWs (cleanParamName (jtrim c0)),
        jtrim nm ≠ "" ∧ jtrim nm ≠ "...") →
      parseTableRow row = some (Sum.inl
        ((splitCommaWs (cleanParamName (jtrim c0))).map (fun nm =>
          ⟨jtrim nm, decide (jtrim c1 = "Yes"), jtrim c2,
           cleanMarkdown (jtrim c3)⟩)))) ∧
    (containsSub (cleanParamName (jtrim c0)) "..." = true →
      parseTableRow row = some (Sum.inr
        ⟨cleanParamName (jtrim c0), decide (jtrim c1 = "Yes"), jtrim c2,
         cleanMarkdown (jtrim c3)⟩)) := by
  have hlen : 4 ≤ (c0 :: c1 :: c2 :: c3 :: rest).length := by
    simp [List.length_cons]
  constructor
  · intro h1 h2 h3
    simp only [parseTableRow, hcells, if_pos hlen,
      List.getD_cons_zero, List.getD_cons_succ]
    rw [if_pos ⟨h1, h2⟩]
    rw [filterMap_if_eq_map (fun nm => jtrim nm ≠ "" ∧ jtrim nm ≠ "...") _ _ h3]
  · intro h2
    simp only [parseTableRow, hcells, if_pos hlen,
      List.getD_cons_zero, List.getD_cons_succ]
    rw [if_neg (by simp [h2])]

/-- C6 witness: a two-name row expands into two parameters sharing the
row's values, and a variadic row stays one literal parameter. -/
theorem c6_multi_name_row_expansion_witness :
    parseTableRow "| <*summand_1*>, <*summand_2*> | Yes | Integer | The numbers. |" =
      some (Sum.inl [⟨"summand_1", true, "Integer", "The numbers."⟩,
                     ⟨"summand_2", true, "Integer", "The numbers."⟩]) ∧
    parseTableRow "| <*object_1*>, <*object_2*>, ... | Yes | Object | The objects. |" =
      some (Sum.inr ⟨"object_1, object_2, ...", true, "Object", "The objects."⟩) := by
  constructor
  · have h := (c6_multi_name_row_expansion
      "| <*summand_1*>, <*summand_2*> | Yes | Integer | The numbers. |"
      " <*summand_1*>, <*summand_2*> " " Yes " " Integer " " The numbers. " []
      (by decide)).1 (by decide) (by decide) (by decide)
    rw [h]; decide
  · have h := (c6_multi_name_row_expansion
      "| <*object_1*>, <*object_2*>, ... | Yes | Object | The objects. |"
      " <*object_1*>, <*object_2*>, ... " " Yes " " Object " " The objects. " []
      (by decide)).2 (by decide)
    rw [h]; decide

/-! ### Lemmas for the syntax field (C4) -/

/-- Helper: once inside a code fence, the syntax loop collects the
trimmed lines up to the closing fence. -/
theorem syntaxLoop_inCode :
    ∀ (ls acc : List String),
    syntaxLoop ls true acc =
      acc ++ (ls.takeWhile (fun l => containsSub (jtrim l) "```" = false)).map jtrim := by
  intro ls
  induction ls with
  | nil => intro acc; simp [syntaxLoop]
  | cons l rest ih =>
    intro acc
    by_cases hc : containsSub (jtrim l) "```" = true
    · rw [List.takeWhile_cons_of_neg (by simp [hc])]
      simp [syntaxLoop, hc]
    · have hc' : containsSub (jtrim l) "```" = false := by
        simpa using hc
      rw [List.takeWhile_cons_of_pos (by simp [hc'])]
      simp only [syntaxLoop, hc', Bool.false_eq_true, false_and, if_false, if_true,
        true_and, if_neg (by simp : ¬(False ∧ True))]
      rw [ih (acc ++ [jtrim l])]
      simp

/-- Helper: the syntax loop equals trimming the lines of the first
fenced block. -/
theorem syntaxLoop_start :
    ∀ ls : List String, syntaxLoop ls false [] = (fenceInterior ls).map jtrim := by
  intro ls
  induction ls with
  | nil => rfl
  | cons l rest ih =>
    by_cases hc : containsSub (jtrim l) "```" = true
    · unfold fenceInterior
      rw [List.dropWhile_cons_of_neg (by simp [hc])]
      rw [show syntaxLoop (l :: rest) false [] = syntaxLoop rest true [] from by
        simp [syntaxLoop, hc]]
      rw [syntaxLoop_inCode rest []]
      simp
    · have hc' : containsSub (jtrim l) "```" = false := by simpa using hc
      unfold fenceInterior
      rw [List.dropWhile_cons_of_pos (by simp [hc'])]
      rw [show syntaxLoop (l :: rest) false [] = syntaxLoop rest false [] from by
        simp [syntaxLoop, hc']]
      rw [ih]
      rfl

/-- Helper: the character data of joining lines with `"\n"`. -/
theorem jsJoin_nl_data :
    ∀ parts : List String, (jsJoin "\n" parts).data = charJoinNl (parts.map String.data) := by
  intro parts
  match parts with
  | [] => rfl
  | [x] => rfl
  | x :: y :: xs =>
    show ((x ++ "\n") ++ jsJoin "\n" (y :: xs)).data = _
    rw [String.data_append, String.data_append, jsJoin_nl_data (y :: xs)]
    simp [charJoinNl]

/-- Helper: a list that avoids `c` and is a prefix of `a ++ c :: rest` is
a prefix of `a`. -/
theorem pre_of_append_cons {α : Type} {c : α} :
    ∀ (a : List α) (rest s : List α), c ∉ s → s <+: a ++ c :: rest → s <+: a := by
  intro a
  induction a with
  | nil =>
    intro rest s hc h
    match s, h with
    | [], _ => exact List.nil_prefix
    | x :: s', h =>
      rw [List.nil_append, List.cons_prefix_cons] at h
      exact absurd (h.1 ▸ List.mem_cons_self x s') hc
  | cons x a' ih =>
    intro rest s hc h
    match s, h with
    | [], _ => exact List.nil_prefix
    | y :: s', h =>
      rw [List.cons_append, List.cons_prefix_cons] at h
      have hs' : s' <+: a' := ih rest s' (fun hm => hc (List.mem_cons_of_mem _ hm)) h.2
      exact List.cons_prefix_cons.mpr ⟨h.1, hs'⟩

/-- Helper: an infix of `a ++ c :: rest` that avoids `c` lies inside `a`
or inside `rest`. -/
theorem infix_of_append_cons {α : Type} {c : α} :
    ∀ (a rest s : List α), c ∉ s → s <:+: a ++ c :: rest → s <:+: a ∨ s <:+: rest := by
  intro a
  induction a with
  | nil =>
    intro rest s hc h
    rw [List.nil_append, List.infix_cons_iff] at h
    rcases h with h | h
    · match s, h with
      | [], _ => exact Or.inl List.nil_infix
      | x :: s', h =>
        rw [List.cons_prefix_cons] at h
        exact absurd (h.1 ▸ List.mem_cons_self x s') hc
    · exact Or.inr h
  | cons x a' ih =>
    intro rest s hc h
    rw [List.cons_append, List.infix_cons_iff] at h
    rcases h with h | h
    · have : s <+: (x :: a') ++ c :: rest := by rwa [List.cons_append]
      exact Or.inl (pre_of_append_cons _ _ _ hc this).isInfix
    · rcases ih rest s hc h with h' | h'
      · obtain ⟨u, v, huv⟩ := h'
        exact Or.inl ⟨x :: u, v, by simp [← huv]⟩
      · exact Or.inr h'

/-- Helper: a nonempty newline-free infix of joined lines lies inside one
of the lines. -/
theorem infix_charJoin :
    ∀ (parts : List (List Char)) (s : List Char), s ≠ [] → '\n' ∉ s →
    s <:+: charJoinNl parts → ∃ p ∈ parts, s <:+: p := by
  intro parts
  induction parts with
  | nil =>
    intro s hne _ h
    rw [show charJoinNl [] = [] from rfl, List.infix_nil] at h
    exact absurd h hne
  | cons x xs ih =>
    intro s hne hnl h
    match xs, ih with
    | [], _ =>
      exact ⟨x, List.mem_cons_self _ _, h⟩
    | y :: ys, ih =>
      rw [show charJoinNl (x :: y :: ys) = x ++ '\n' :: charJoinNl (y :: ys) from rfl] at h
      rcases infix_of_append_cons _ _ _ hnl h with h' | h'
      · exact ⟨x, List.mem_cons_self _ _, h'⟩
      · obtain ⟨p, hp, hsp⟩ := ih s hne hnl h'
        exact ⟨p, List.mem_cons_of_mem _ hp, hsp⟩

/-- Helper: each line is an infix of the joined lines. -/
theorem mem_infix_charJoin :
    ∀ (parts : List (List Char)) (p : List Char), p ∈ parts → p <:+: charJoinNl parts := by
  intro parts
  induction parts with
  | nil => intro p hp; exact absurd hp (List.not_mem_nil p)
  | cons x xs ih =>
    intro p hp
    match xs, ih with
    | [], _ =>
      rw [List.mem_singleton] at hp
      exact hp ▸ List.infix_rfl
    | y :: ys, ih =>
      rcases List.mem_cons.mp hp with h | h
      · exact h ▸ (List.prefix_append x ('\n' :: charJoinNl (y :: ys))).isInfix
      · obtain ⟨u, v, huv⟩ := ih p h
        refine ⟨x ++ '\n' :: u, v, ?_⟩
        rw [show charJoinNl (x :: y :: ys) = x ++ '\n' :: charJoinNl (y :: ys) from rfl,
          ← huv]
        simp

/-- Helper: a nonempty whitespace-free infix survives dropping leading
whitespace. -/
theorem infix_dropWhile_ws {s : List Char} (hne : s ≠ [])
    (hws : ∀ c ∈ s, jsWs c = false) :
    ∀ l : List Char, s <:+: l → s <:+: l.dropWhile jsWs := by
  intro l
  induction l with
  | nil =>
    intro h
    rw [List.infix_nil] at h
    exact absurd h hne
  | cons c l' ih =>
    intro h
    by_cases hcw : jsWs c = true
    · rw [List.dropWhile_cons_of_pos hcw]
      rw [List.infix_cons_iff] at h
      rcases h with h | h
      · match s, h with
        | [], _ => exact absurd rfl hne
        | x :: s', h =>
          rw [List.cons_prefix_cons] at h
          have := hws x (List.mem_cons_self x s')
          rw [h.1, hcw] at this
          exact Bool.noConfusion this
      · exact ih h
    · rwa [List.dropWhile_cons_of_neg hcw]

/-- Helper: a nonempty whitespace-free infix survives trimming. -/
theorem infix_trimChars {s : List Char} (hne : s ≠ [])
    (hws : ∀ c ∈ s, jsWs c = false) {l : List Char} (h : s <:+: l) :
    s <:+: trimChars l := by
  have h1 : s <:+: l.dropWhile jsWs := infix_dropWhile_ws hne hws l h
  have h2 : s.reverse <:+: (l.dropWhile jsWs).reverse :=
    List.reverse_infix.mpr h1
  have hne' : s.reverse ≠ [] := by
    intro hr
    exact hne (by simpa using congrArg List.reverse hr)
  have hws' : ∀ c ∈ s.reverse, jsWs c = false :=
    fun c hc => hws c (List.mem_reverse.mp hc)
  have h3 : s.reverse <:+: (l.dropWhile jsWs).reverse.dropWhile jsWs :=
    infix_dropWhile_ws hne' hws' _ h2
  have h4 := List.reverse_infix.mpr h3
  rwa [List.reverse_reverse] at h4

/-- C4 (counterexample): the syntax field is not the verbatim interior of
the first fenced code block trimmed as a whole — indented interior lines
lose their indentation, because each line is trimmed individually before
joining. -/
theorem c4_syntax_not_verbatim_cex :
    extractSyntax ["```", "formatNumber(", "  1345,", "  2", ")", "```"] =
      "formatNumber(\n1345,\n2\n)" ∧
    syntaxVerbatimSpec ["```", "formatNumber(", "  1345,", "  2", ")", "```"] =
      "formatNumber(\n  1345,\n  2\n)" ∧
    extractSyntax ["```", "formatNumber(", "  1345,", "  2", ")", "```"] ≠
      syntaxVerbatimSpec ["```", "formatNumber(", "  1345,", "  2", ")", "```"] := by
  refine ⟨by decide, by decide, by decide⟩

/-- C4 (amended): the syntax field equals the lines strictly inside the
first fenced code block, each line trimmed individually, joined with
newlines and the whole trimmed; it is the empty string when the block
contains no fence line; and it still contains every whitespace-free
string (such as a call form `"add("`) that the code block's verbatim
text contains. -/
theorem c4_syntax_per_line_trimmed (block : List String) :
    extractSyntax block = jtrim (jsJoin "\n" ((fenceInterior block).map jtrim)) ∧
    ((∀ l ∈ block, containsSub (jtrim l) "```" = false) → extractSyntax block = "") ∧
    (∀ s : String, wsFree s →
      containsSub (jsJoin "\n" (fenceInterior block)) s = true →
      containsSub (extractSyntax block) s = true) := by
  have hx : extractSyntax block = jtrim (jsJoin "\n" ((fenceInterior block).map jtrim)) := by
    unfold extractSyntax
    rw [syntaxLoop_start]
  refine ⟨hx, ?_, ?_⟩
  · intro h
    have hfi : fenceInterior block = [] := by
      unfold fenceInterior
      rw [List.dropWhile_eq_nil_iff.mpr (fun x hx => by simp [h x hx])]
    rw [hx, hfi]
    decide
  · intro s hws hcontain
    by_cases hse : s.data = []
    · unfold containsSub
      rw [hse, decide_eq_true_eq]
      exact List.nil_infix
    · have hnl : '\n' ∉ s.data := fun hmem => by
        have := hws '\n' hmem
        simp [jsWs] at this
      unfold containsSub at hcontain
      rw [decide_eq_true_eq, jsJoin_nl_data] at hcontain
      obtain ⟨pd, hpd, hs⟩ := infix_charJoin _ _ hse hnl hcontain
      obtain ⟨p, hp, rfl⟩ := List.mem_map.mp hpd
      have h2 : s.data <:+: (jtrim p).data := infix_trimChars hse hws hs
      have hp3 : (jtrim p).data ∈ ((fenceInterior block).map jtrim).map String.data :=
        List.mem_map_of_mem _ (List.mem_map_of_mem _ hp)
      have h4 := mem_infix_charJoin _ _ hp3
      have h5 := h2.trans h4
      rw [← jsJoin_nl_data] at h5
      have h6 : s.data <:+: trimChars (jsJoin "\n" ((fenceInterior block).map jtrim)).data :=
        infix_trimChars hse hws h5
      rw [hx]
      unfold containsSub
      rw [decide_eq_true_eq]
      exact h6

/-- C4 witness: the amended statement applied to concrete blocks. -/
theorem c4_syntax_per_line_trimmed_witness :
    extractSyntax ["```", " add(1, 2) ", "```"] =
      jtrim (jsJoin "\n" ((fenceInterior ["```", " add(1, 2) ", "```"]).map jtrim)) ∧
    extractSyntax ["no fence here"] = "" ∧
    containsSub (extractSyntax ["```", " add(1, 2) ", "```"]) "add(" = true := by
  refine ⟨(c4_syntax_per_line_trimmed _).1, ?_, ?_⟩
  · exact (c4_syntax_per_line_trimmed ["no fence here"]).2.1 (by decide)
  · exact (c4_syntax_per_line_trimmed ["```", " add(1, 2) ", "```"]).2.2
      "add(" (by unfold wsFree; decide) (by decide)

/-! ### Lemmas for heading order (C3) -/

/-- Helper: a line the heading regexes match is also a block-terminator
line (both demand `### ` followed by a letter). -/
theorem heading_isBlockEnd (line : String) (h : headingNameSplit line ≠ none) :
    isBlockEnd line = true := by
  unfold headingNameSplit at h
  unfold isBlockEnd
  split at h
  · next c rest heq =>
    rw [heq]
    by_cases hc : regAlpha c = true
    · simp [hc]
    · rw [if_neg (by simpa using hc)] at h
      exact absurd rfl h
  · exact absurd rfl h

/-- Helper: a line that does not terminate a block is not an accepted
heading. -/
theorem acceptedNameOf_of_not_blockEnd (line : String)
    (h : isBlockEnd line = false) : acceptedNameOf line = none := by
  unfold acceptedNameOf matchFunctionHeading
  cases hns : headingNameSplit line with
  | none => rfl
  | some x =>
    have := heading_isBlockEnd line (by rw [hns]; exact fun h => Option.noConfusion h)
    rw [this] at h
    exact Bool.noConfusion h

/-- Helper: dropping as many elements as `takeWhile` keeps is
`dropWhile`. -/
theorem drop_length_takeWhile {α : Type} (p : α → Bool) :
    ∀ l : List α, l.drop (l.takeWhile p).length = l.dropWhile p := by
  intro l
  induction l with
  | nil => rfl
  | cons c l' ih =>
    by_cases hc : p c = true
    · rw [List.takeWhile_cons_of_pos hc, List.dropWhile_cons_of_pos hc,
        List.length_cons, List.drop_succ_cons]
      exact ih
    · rw [List.takeWhile_cons_of_neg hc, List.dropWhile_cons_of_neg hc]
      rfl

/-- Helper: dropping elements preserves `Chain'`. -/
theorem chain'_drop {α : Type} {R : α → α → Prop} :
    ∀ (n : Nat) (l : List α), List.Chain' R l → List.Chain' R (l.drop n) := by
  intro n
  induction n with
  | zero => intro l h; simpa using h
  | succ n ih =>
    intro l h
    rw [← List.tail_drop]
    exact (ih l h).tail

/-- Helper: the names of the entries the main loop produces are exactly
the accepted heading names the scan reaches, in document order, provided
no accepted heading sits on the line immediately after another accepted
heading (the only situation in which the block scan swallows a
heading). -/
theorem parseLoopF_map_name (m : List (String × String)) :
    ∀ (fuel : Nat) (lines : List String), lines.length ≤ fuel →
    List.Chain' (fun a b => acceptedNameOf a = none ∨ acceptedNameOf b = none) lines →
    (parseLoopF m fuel lines).map (fun f => f.sName) = lines.filterMap acceptedNameOf := by
  intro fuel
  induction fuel with
  | zero =>
    intro lines hlen _
    rw [List.length_eq_zero.mp (Nat.le_zero.mp hlen)]
    simp [parseLoopF]
  | succ fuel ih =>
    intro lines hlen hch
    match lines with
    | [] => simp [parseLoopF]
    | line :: rest =>
      have hlen' : rest.length ≤ fuel := by
        simpa using Nat.succ_le_succ_iff.mp (by simpa using hlen)
      cases hm : matchFunctionHeading line with
      | none =>
        have ha : acceptedNameOf line = none := by simp [acceptedNameOf, hm]
        rw [show parseLoopF m (fuel + 1) (line :: rest) = parseLoopF m fuel rest from by
          simp [parseLoopF, hm]]
        rw [List.filterMap_cons_none ha]
        exact ih rest hlen' hch.tail
      | some hd =>
        by_cases hskip : hd.sName ∈ aSkipNames
        · have ha : acceptedNameOf line = none := by simp [acceptedNameOf, hm, hskip]
          rw [show parseLoopF m (fuel + 1) (line :: rest) = parseLoopF m fuel rest from by
            simp [parseLoopF, hm, hskip]]
          rw [List.filterMap_cons_none ha]
          exact ih rest hlen' hch.tail
        · have ha : acceptedNameOf line = some hd.sName := by
            simp [acceptedNameOf, hm, hskip]
          rw [show parseLoopF m (fuel + 1) (line :: rest) =
              mkFunc hd (blockOf rest) m ::
                parseLoopF m fuel (rest.drop (blockOf rest).length) from by
            simp [parseLoopF, hm, hskip]]
          rw [List.map_cons, List.filterMap_cons_some ha]
          refine congrArg (List.cons hd.sName) ?_
          match rest, hlen', hch with
          | [], _, _ =>
            cases fuel <;> simp [parseLoopF, blockOf]
          | l2 :: ls, hlen', hch =>
            have ha2 : acceptedNameOf l2 = none := by
              rcases (List.chain'_cons.mp hch).1 with h | h
              · rw [ha] at h; exact Option.noConfusion h
              · exact h
            have hblock : blockOf (l2 :: ls) =
                l2 :: ls.takeWhile (fun s => isBlockEnd s = false) := rfl
            have hdrop : (l2 :: ls).drop (blockOf (l2 :: ls)).length =
                ls.dropWhile (fun s => isBlockEnd s = false) := by
              rw [hblock, List.length_cons, List.drop_succ_cons]
              exact drop_length_takeWhile _ ls
            rw [hdrop]
            have htake : (ls.takeWhile (fun s => isBlockEnd s = false)).filterMap
                acceptedNameOf = [] := by
              rw [List.filterMap_eq_nil_iff]
              intro a hamem
              have := List.mem_takeWhile_imp hamem
              exact acceptedNameOf_of_not_blockEnd a (by simpa using this)
            have hsplit : l2 :: ls =
                l2 :: (ls.takeWhile (fun s => isBlockEnd s = false) ++
                  ls.dropWhile (fun s => isBlockEnd s = false)) := by
              rw [List.takeWhile_append_dropWhile]
            rw [hsplit, List.filterMap_cons_none ha2, List.filterMap_append, htake,
              List.nil_append]
            have hlen2 : (ls.dropWhile (fun s => isBlockEnd s = false)).length ≤ fuel := by
              calc (ls.dropWhile (fun s => isBlockEnd s = false)).length
                  ≤ ls.length := List.Sublist.length_le (List.dropWhile_sublist _)
                _ ≤ fuel := by
                    have : ls.length + 1 ≤ fuel := by simpa using hlen'
                    omega
            have hch2 : List.Chain'
                (fun a b => acceptedNameOf a = none ∨ acceptedNameOf b = none)
                (ls.dropWhile (fun s => isBlockEnd s = false)) := by
              have := chain'_drop
                (2 + (ls.takeWhile (fun s => isBlockEnd s = false)).length)
                (line :: l2 :: ls) hch
              rw [show (2 + (ls.takeWhile (fun s => isBlockEnd s = false)).length) =
                  ((ls.takeWhile (fun s => isBlockEnd s = false)).length + 1) + 1
                  from by omega] at this
              rw [List.drop_succ_cons, List.drop_succ_cons,
                drop_length_takeWhile] at this
              exact this
            exact ih _ hlen2 hch2

/-- C3 (counterexample): an accepted heading on the line immediately
after another accepted heading produces no entry — the block scan of the
first heading unconditionally includes the very next line, swallowing
the second heading. -/
theorem c3_adjacent_heading_swallowed_cex :
    acceptedNameOf "### beta" = some "beta" ∧
    (parseFunctionReference docAdjacentHeadings).map (fun f => f.sName) = ["alpha"] := by
  refine ⟨by decide, by decide⟩

/-- C3 (amended): provided no accepted heading sits on the line directly
after another accepted heading, every accepted heading at or after the
alphabetical-section start produces exactly one entry, the output
preserves the document order of the headings, and duplicate names each
produce their own entry (the name list is the heading-scan `filterMap`,
with no de-duplication).  A heading on the line immediately following an
accepted heading is swallowed into the preceding block and produces no
entry. -/
theorem c3_headings_in_document_order (doc : String)
    (hsep : List.Chain' (fun a b => acceptedNameOf a = none ∨ acceptedNameOf b = none)
      ((splitNl doc).drop (findAlphabeticalListStart (splitNl doc)))) :
    (parseFunctionReference doc).map (fun f => f.sName) =
      ((splitNl doc).drop (findAlphabeticalListStart (splitNl doc))).filterMap
        acceptedNameOf := by
  unfold parseFunctionReference parseLoop
  exact parseLoopF_map_name _ _ _ (Nat.le_succ _) hsep

/-- C3 witness: the amended statement at a concrete document with a
duplicated heading name separated by body lines. -/
theorem c3_headings_in_document_order_witness :
    (parseFunctionReference docDuplicateName).map (fun f => f.sName) =
      ((splitNl docDuplicateName).drop
        (findAlphabeticalListStart (splitNl docDuplicateName))).filterMap
        acceptedNameOf :=
  c3_headings_in_document_order docDuplicateName (by
    rw [show (splitNl docDuplicateName).drop
        (findAlphabeticalListStart (splitNl docDuplicateName)) =
        ["<a name=\"alphabetical-list\"></a>", "### add", "body", "### add", "body",
         "### Base64", "body"] from by decide]
    refine List.chain'_cons.mpr ⟨Or.inl (by decide), ?_⟩
    refine List.chain'_cons.mpr ⟨Or.inr (by decide), ?_⟩
    refine List.chain'_cons.mpr ⟨Or.inl (by decide), ?_⟩
    refine List.chain'_cons.mpr ⟨Or.inr (by decide), ?_⟩
    refine List.chain'_cons.mpr ⟨Or.inl (by decide), ?_⟩
    refine List.chain'_cons.mpr ⟨Or.inl (by decide), ?_⟩
    exact List.chain'_singleton _)
